import Mathlib

/-!
# Portfolio Visualizer: verification of the valuation and aggregation engine

A shallow embedding of the valuation core of `src/app.py` (a Flet portfolio
tracker).  Dates are modelled as integers (day numbers), monetary amounts as
rationals, and a pandas `Series` as a list of `(date, Option ℚ)` entries where
`none` models a missing value (NaN).  External market data (Yahoo Finance
downloads) is modelled by oracle functions supplied as a `Market` structure.
-/

abbrev Date := Int

/-- A pandas Series over dates; a `none` value models NaN. -/
structure PSeries where
  entries : List (Date × Option ℚ)
deriving DecidableEq, Repr

namespace PSeries

/-- The date index of the series. -/
def keys (s : PSeries) : List Date := s.entries.map Prod.fst

/-- `s.lookup d`: the value stored at date `d`; `none` both when the date is
absent and when the stored value is NaN (pandas treats both as NaN). -/
def lookup (s : PSeries) (d : Date) : Option ℚ :=
  match s.entries.find? (fun e => decide (e.1 = d)) with
  | none => none
  | some e => e.2

/-- Models `s.reindex(idx)`: one entry per index date, `NaN` where absent. -/
def reindex (s : PSeries) (idx : List Date) : PSeries :=
  ⟨idx.map fun d => (d, s.lookup d)⟩

/-- Helper for forward fill: carries the last seen value. -/
def ffillGo : Option ℚ → List (Date × Option ℚ) → List (Date × Option ℚ)
  | _, [] => []
  | last, (d, v) :: rest =>
    match v with
    | some x => (d, some x) :: ffillGo (some x) rest
    | none => (d, last) :: ffillGo last rest

/-- Models `s.ffill()`: forward-fills missing values from the most recent
prior value; leading missing values stay missing. -/
def ffill (s : PSeries) : PSeries := ⟨ffillGo none s.entries⟩

/-- Models `close * fx` for `fx` already reindexed onto `close`'s index:
elementwise product with NaN propagation. -/
def mulSeries (close fx : PSeries) : PSeries :=
  ⟨close.entries.map fun e =>
    (e.1, e.2.bind fun x => (fx.lookup e.1).map fun y => x * y)⟩

/-- Models `s * c` for a scalar `c` (NaN stays NaN). -/
def scale (s : PSeries) (c : ℚ) : PSeries :=
  ⟨s.entries.map fun e => (e.1, e.2.map fun x => x * c)⟩

/-- Models `s[s.index >= p]`. -/
def filterGE (s : PSeries) (p : Date) : PSeries :=
  ⟨s.entries.filter fun e => decide (p ≤ e.1)⟩

/-- `true` iff date `d` occurs in the index. -/
def containsKey (s : PSeries) (d : Date) : Bool :=
  s.entries.any fun e => decide (e.1 = d)

/-- Models `s.loc[d] = v`: replace the value at an existing date, or append a
new row at the end when the date is absent. -/
def setLoc (s : PSeries) (d : Date) (v : ℚ) : PSeries :=
  if s.containsKey d then
    ⟨s.entries.map fun e => if e.1 = d then (d, some v) else e⟩
  else
    ⟨s.entries ++ [(d, some v)]⟩

/-- The sort relation of `sort_index`: compare entries by date. -/
def leKey (e f : Date × Option ℚ) : Prop := e.1 ≤ f.1

instance : DecidableRel leKey := fun e f => inferInstanceAs (Decidable (e.1 ≤ f.1))

instance : IsTotal (Date × Option ℚ) leKey := ⟨fun a b => Int.le_total a.1 b.1⟩

instance : IsTrans (Date × Option ℚ) leKey := ⟨fun _ _ _ h h2 => le_trans h h2⟩

/-- Models `s.sort_index()`. -/
def sortIndex (s : PSeries) : PSeries :=
  ⟨List.insertionSort leKey s.entries⟩

end PSeries

/-- Models Python `str.strip()`: drop leading and trailing whitespace. -/
def pyStrip (s : String) : String :=
  ⟨((s.data.dropWhile Char.isWhitespace).reverse.dropWhile Char.isWhitespace).reverse⟩

/-- Models Python `str.upper()` on ASCII tickers. -/
def pyUpper (s : String) : String :=
  ⟨s.data.map Char.toUpper⟩

/-- Models `_normalize_ccy`: default missing/empty input to CHF, strip
whitespace, and map the Yahoo pence code `GBp` to `GBP`. -/
def normalize_ccy : Option String → String
  | none => "CHF"
  | some c =>
    if c = "" then "CHF"
    else
      let c := pyStrip c
      if c = "GBp" then "GBP" else c

/-- A holding as stored in the `assets` list (numeric fields already passed
through `to_float`; an empty ticker models a missing/falsy ticker). -/
structure Asset where
  ticker : String
  shares : ℚ
  price : ℚ
  current_price : ℚ
  purchase_date : Option Date
deriving DecidableEq, Repr

/-- Oracles for external market data, fixed for one recompute:
`close t` is the result of `download_close(t, start, end)` (already
NaN-dropped, hence plain rationals; `none` when the download fails),
`tickerCurrency t` is the result of `get_ticker_currency(t)` (normalized,
defaulting to CHF), and `fx c` is the downloaded close series backing
`get_fx_series_to_chf` for currency `c` (`none` when that download fails). -/
structure Market where
  close : String → Option (List (Date × ℚ))
  tickerCurrency : String → String
  fx : String → Option (List (Date × ℚ))

/-- The inclusive daily range `pd.date_range(a, b, freq="D")`. -/
def dateRange (a b : Date) : List Date :=
  (List.range (b - a + 1).toNat).map fun i => a + i

/-- Models `get_fx_series_to_chf`: identity series for CHF, otherwise the
downloaded FX close series; `none` models the raised `ValueError`. -/
def get_fx_series_to_chf (m : Market) (ccy : String) (startD endD : Date) :
    Option PSeries :=
  let c := normalize_ccy (some ccy)
  if c = "CHF" then
    some ⟨(dateRange startD endD).map fun d => (d, some 1)⟩
  else
    (m.fx c).map fun l => ⟨l.map fun e => (e.1, some e.2)⟩

/-- The tail of the per-asset loop body: multiply by shares, trim to the
purchase date, anchor the purchase date at `shares * purchase_price`, and
drop the series when empty. -/
def finishHolding (a : Asset) (close2 : PSeries) : Option PSeries :=
  let value := close2.scale a.shares
  let value :=
    match a.purchase_date with
    | none => value
    | some p =>
      let v1 := value.filterGE p
      if 0 < a.price then (v1.setLoc p (a.shares * a.price)).sortIndex else v1
  if value.entries.length = 0 then none else some value

/-- One iteration of the per-asset loop of `update_total_worth_graph`:
`.ok none` models `continue`, `.error ()` models an uncaught exception from
`get_fx_series_to_chf`. -/
def holdingSeries (m : Market) (startD endD : Date) (a : Asset) :
    Except Unit (Option PSeries) :=
  if a.ticker = "" then .ok none
  else if a.shares ≤ 0 then .ok none
  else
    match m.close a.ticker with
    | none => .ok none
    | some cl =>
      let close : PSeries := ⟨cl.map fun e => (e.1, some e.2)⟩
      let ccy := m.tickerCurrency a.ticker
      if ccy ≠ "CHF" then
        match get_fx_series_to_chf m ccy startD endD with
        | none => .error ()
        | some fx0 =>
          let fx := (fx0.reindex close.keys).ffill
          .ok (finishHolding a (close.mulSeries fx))
      else
        .ok (finishHolding a close)

/-- The whole per-asset loop: collect the per-holding value series in order,
propagating an FX exception. -/
def seriesList (m : Market) (startD endD : Date) :
    List Asset → Except Unit (List PSeries)
  | [] => .ok []
  | a :: rest =>
    match holdingSeries m startD endD a with
    | .error _ => .error ()
    | .ok none => seriesList m startD endD rest
    | .ok (some s) => (seriesList m startD endD rest).map fun l => s :: l

/-- Sorted-insert of a date into a strictly ascending duplicate-free list:
the index-union semantics of `pd.concat(..., axis=1)`. -/
def insortD (d : Date) : List Date → List Date
  | [] => [d]
  | e :: es => if d < e then d :: e :: es else if d = e then e :: es else e :: insortD d es

/-- The union of all series' date indexes, ascending and de-duplicated. -/
def unionIndex (sl : List PSeries) : List Date :=
  ((sl.map PSeries.keys).flatten).foldr insortD []

/-- Models `pd.concat(series_list, axis=1).sort_index().ffill()` followed by
`.fillna(0).sum(axis=1)`: for each union date, sum each series'
forward-filled value there, counting missing values as 0. -/
def totalSeries (sl : List PSeries) : List (Date × ℚ) :=
  let idx := unionIndex sl
  idx.map fun d => (d, (sl.map fun s => (((s.reindex idx).ffill).lookup d).getD 0).sum)

/-- The synthetic "today" total: `Σ shares × current_price` over assets with
positive shares whose purchase date is not after today (an asset with no
purchase date is included, mirroring `if pdate and today < pdate: continue`). -/
def latestTotalOf (assets : List Asset) (today : Date) : ℚ :=
  assets.foldl
    (fun acc a =>
      if a.shares ≤ 0 then acc
      else
        match a.purchase_date with
        | some p => if today < p then acc else acc + a.shares * a.current_price
        | none => acc + a.shares * a.current_price)
    0

/-- `true` iff date `d` occurs among the keys of the total series. -/
def containsKeyQ (l : List (Date × ℚ)) (d : Date) : Bool :=
  l.any fun e => decide (e.1 = d)

/-- Models `total.loc[d] = v` on the (NaN-free) total series. -/
def setLocQ (l : List (Date × ℚ)) (d : Date) (v : ℚ) : List (Date × ℚ) :=
  if containsKeyQ l d then
    l.map fun e => if e.1 = d then (d, v) else e
  else
    l ++ [(d, v)]

/-- The sort relation of `sort_index` on the total series. -/
def leKeyQ (e f : Date × ℚ) : Prop := e.1 ≤ f.1

instance : DecidableRel leKeyQ := fun e f => inferInstanceAs (Decidable (e.1 ≤ f.1))

instance : IsTotal (Date × ℚ) leKeyQ := ⟨fun a b => Int.le_total a.1 b.1⟩

instance : IsTrans (Date × ℚ) leKeyQ := ⟨fun _ _ _ h h2 => le_trans h h2⟩

/-- Models `total.sort_index()`. -/
def sortIndexQ (l : List (Date × ℚ)) : List (Date × ℚ) :=
  List.insertionSort leKeyQ l

/-- Models `total.index.max()` (`none` on an empty series). -/
def maxKeyD (l : List (Date × ℚ)) : Option Date :=
  match l.map Prod.fst with
  | [] => none
  | d :: ds => some (ds.foldl max d)

/-- The "today" snapshot step of `update_total_worth_graph`: when the series
is non-empty and its latest date is strictly before today, write the
synthetic total at today and re-sort. -/
def updateTotal (assets : List Asset) (today : Date) (total : List (Date × ℚ)) :
    List (Date × ℚ) :=
  match maxKeyD total with
  | none => total
  | some mx =>
    if mx < today then sortIndexQ (setLocQ total today (latestTotalOf assets today))
    else total

/-- The query window start: the earliest purchase date, else one year back. -/
def startDateOf (assets : List Asset) (today : Date) : Date :=
  match assets.filterMap Asset.purchase_date with
  | [] => today - 365
  | d :: ds => ds.foldl min d

/-- The total-series part of `update_total_worth_graph`: per-holding series,
date-aligned sum, and the synthetic today point.  `.error` models an FX
exception escaping the handler-free loop; an empty list models the reset
(no-chart) state. -/
def update_total_worth (m : Market) (today : Date) (assets : List Asset) :
    Except Unit (List (Date × ℚ)) :=
  if assets.length = 0 then .ok []
  else
    (seriesList m (startDateOf assets today) (today + 1) assets).map fun sl =>
      if sl.length = 0 then [] else updateTotal assets today (totalSeries sl)

/-- The summary loop: total cost and total current value over assets with
positive shares. -/
def summaryTotals (assets : List Asset) : ℚ × ℚ :=
  assets.foldl
    (fun acc a =>
      if a.shares ≤ 0 then acc
      else (acc.1 + a.shares * a.price, acc.2 + a.shares * a.current_price))
    (0, 0)

/-- The y-range computation on the plotted values: 5% padding, or a unit pad
when the value range is smaller than the `1e-9` tolerance. -/
def chartBounds (values : List ℚ) : ℚ × ℚ :=
  match values with
  | [] => (0, 1)
  | v :: vs =>
    let mn := vs.foldl min v
    let mx := vs.foldl max v
    let rng := mx - mn
    if |rng| < 1 / 1000000000 then (mn - 1, mx + 1)
    else (mn - 0.05 * rng, mx + 0.05 * rng)

/-- The numeric values of the custom y-axis labels, top label first:
`min_y + i * step` for `i = y_ticks, ..., 0` with `y_ticks = 8` and
`step = (max_y - min_y) / 8` (1 when the range is not positive). -/
def yAxisLabelValues (min_y max_y : ℚ) : List ℚ :=
  let rng := max_y - min_y
  let step := if 0 < rng then rng / 8 else 1
  (List.range 9).reverse.map fun i : ℕ => min_y + (i : ℚ) * step

/-- The quote metadata used by `get_current_price` (`t.info`). -/
structure QuoteInfo where
  regularMarketPrice : Option ℚ
  currentPrice : Option ℚ
  previousClose : Option ℚ
  currency : Option String
deriving DecidableEq, Repr

/-- Python `a or b` on optional numbers: `a` unless it is `None` or `0.0`. -/
def pyOrQ (a b : Option ℚ) : Option ℚ :=
  match a with
  | some x => if x = 0 then b else some x
  | none => b

/-- Models `get_current_price`: pick the first truthy quote field (falling
back to the last 5-day historical close), normalize the currency, divide by
100 exactly when the normalized code is GBP and the raw code was `GBp`, then
convert with the spot FX rate.  `fxLast c` is the last downloaded close of
`cCHF=X` backing `get_fx_rate_to_chf`; `none` models a raised error. -/
def get_current_price (info : QuoteInfo) (hist5d : List ℚ)
    (fxLast : String → Option ℚ) : Option ℚ :=
  let price0 := pyOrQ info.regularMarketPrice (pyOrQ info.currentPrice info.previousClose)
  let price1 :=
    match price0 with
    | some p => some p
    | none => hist5d.getLast?
  match price1 with
  | none => none
  | some p =>
    let ccy := normalize_ccy info.currency
    let p := if ccy = "GBP" ∧ info.currency = some "GBp" then p / 100 else p
    match (if normalize_ccy (some ccy) = "CHF" then some 1
           else fxLast (normalize_ccy (some ccy))) with
    | none => none
    | some fx => some (p * fx)

/-- External calls made by the add-asset flow, in program order. -/
inductive Retrieval
  | currentPrice
  | firstDate
  | tickerName
  | assetType
deriving DecidableEq, Repr

/-- The outcome of `on_add_click`: the holding appended, or nothing. -/
inductive AddOutcome
  | rejected
  | added (a : Asset)
deriving DecidableEq, Repr

/-- The oracle side of `on_add_click`: the current-price fetch (`none` is an
exception) and the first-trade-date fetch (`none` is an unknown date). -/
structure AddOracle where
  current_price : Option ℚ
  first_date : Option Date

/-- Models `on_add_click`: dialog validation, the future-date and
positivity checks, then the current-price fetch, then the first-trade-date
check, then the append.  `shares` and `price` are the `to_float` images of
the raw fields.  Returns the external retrievals performed, in order,
together with the outcome. -/
def on_add_click (o : AddOracle) (today : Date) (ticker : String)
    (shares price : ℚ) (pdate : Option Date) : List Retrieval × AddOutcome :=
  if ¬(pyStrip ticker ≠ "" ∧ 0 < shares ∧ 0 < price ∧ pdate.isSome) then
    ([], .rejected)
  else
    match pdate with
    | none => ([], .rejected)
    | some p =>
      if today < p then ([], .rejected)
      else if shares ≤ 0 ∨ price ≤ 0 then ([], .rejected)
      else
        match o.current_price with
        | none => ([.currentPrice], .rejected)
        | some cp =>
          match o.first_date with
          | some fd =>
            if p < fd then ([.currentPrice, .firstDate], .rejected)
            else
              ([.currentPrice, .firstDate, .tickerName, .assetType],
                .added ⟨pyUpper (pyStrip ticker), shares, price, cp, some p⟩)
          | none =>
            ([.currentPrice, .firstDate, .tickerName, .assetType],
              .added ⟨pyUpper (pyStrip ticker), shares, price, cp, some p⟩)

/-- Models `delete_asset`: scan the list in order, remove the first holding
whose ticker matches, stop at the first match. -/
def delete_asset (t : String) : List Asset → List Asset
  | [] => []
  | a :: rest => if a.ticker = t then rest else a :: delete_asset t rest

/-! ## Concrete market data used by witnesses and counterexamples -/

/-- A market with one USD ticker `AAA` and a flat USD/CHF rate of 2. -/
def mAnchor : Market :=
  ⟨fun t => if t = "AAA" then some [(0, 10), (1, 12)] else none,
    fun _ => "USD",
    fun c => if c = "USD" then some [(0, 2), (1, 2)] else none⟩

/-- A holding of 2 shares of `AAA` bought at day 0 for 3 CHF per share. -/
def aAnchor : Asset := ⟨"AAA", 2, 3, 4, some 0⟩

/-- A market whose USD/CHF series only starts at day 2, later than the
first two price dates of ticker `A`. -/
def mFx : Market :=
  ⟨fun t => if t = "A" then some [(0, 10), (1, 20), (2, 30)] else none,
    fun t => if t = "A" then "USD" else "CHF",
    fun c => if c = "USD" then some [(2, 2)] else none⟩

/-- One share of `A` bought at day 0 for 5 CHF. -/
def aFx : Asset := ⟨"A", 1, 5, 7, some 0⟩

/-- A market for a pence-quoted ticker `T`: historical closes of 100 (pence),
normalized currency GBP, flat GBP/CHF rate of 1. -/
def mGbp : Market :=
  ⟨fun t => if t = "T" then some [(0, 100), (1, 100)] else none,
    fun t => if t = "T" then "GBP" else "CHF",
    fun c => if c = "GBP" then some [(0, 1), (1, 1)] else none⟩

/-- One share of `T` bought at day 0 for 1 CHF. -/
def aGbp : Asset := ⟨"T", 1, 1, 1, some 0⟩

/-- The quote metadata of `T`: raw currency `GBp`, market price 100 pence. -/
def gbpQuote : QuoteInfo := ⟨some 100, none, none, some "GBp"⟩

/-! ## Helper lemmas on folds, sorted inserts and series operations -/

theorem foldl_max_self {α} [LinearOrder α] (xs : List α) (x : α) :
    x ≤ xs.foldl max x := by
  induction xs generalizing x with
  | nil => exact le_refl x
  | cons e es ih => exact le_trans (le_max_left x e) (ih (max x e))

theorem le_foldl_max {α} [LinearOrder α] (xs : List α) (x d : α)
    (h : d = x ∨ d ∈ xs) : d ≤ xs.foldl max x := by
  induction xs generalizing x with
  | nil =>
    rcases h with h | h
    · simp [h]
    · simp at h
  | cons e es ih =>
    rw [List.foldl_cons]
    rcases h with h | h
    · exact le_trans (h ▸ le_max_left x e) (foldl_max_self es (max x e))
    · rcases List.mem_cons.mp h with h | h
      · exact le_trans (h ▸ le_max_right x e) (foldl_max_self es (max x e))
      · exact ih (max x e) (Or.inr h)

theorem foldl_max_mem {α} [LinearOrder α] (xs : List α) (x : α) :
    xs.foldl max x ∈ x :: xs := by
  induction xs generalizing x with
  | nil => simp
  | cons e es ih =>
    rw [List.foldl_cons]
    rcases List.mem_cons.mp (ih (max x e)) with h | h
    · rcases max_choice x e with hc | hc
      · rw [h, hc]; simp
      · rw [h, hc]; simp
    · simp only [List.mem_cons] at h ⊢
      tauto

theorem foldl_min_self {α} [LinearOrder α] (xs : List α) (x : α) :
    xs.foldl min x ≤ x := by
  induction xs generalizing x with
  | nil => exact le_refl x
  | cons e es ih => exact le_trans (ih (min x e)) (min_le_left x e)

theorem foldl_min_le {α} [LinearOrder α] (xs : List α) (x d : α)
    (h : d = x ∨ d ∈ xs) : xs.foldl min x ≤ d := by
  induction xs generalizing x with
  | nil =>
    rcases h with h | h
    · simp [h]
    · simp at h
  | cons e es ih =>
    rw [List.foldl_cons]
    rcases h with h | h
    · exact le_trans (foldl_min_self es (min x e)) (h ▸ min_le_left x e)
    · rcases List.mem_cons.mp h with h | h
      · exact le_trans (foldl_min_self es (min x e)) (h ▸ min_le_right x e)
      · exact ih (min x e) (Or.inr h)

theorem foldl_min_mem {α} [LinearOrder α] (xs : List α) (x : α) :
    xs.foldl min x ∈ x :: xs := by
  induction xs generalizing x with
  | nil => simp
  | cons e es ih =>
    rw [List.foldl_cons]
    rcases List.mem_cons.mp (ih (min x e)) with h | h
    · rcases min_choice x e with hc | hc
      · rw [h, hc]; simp
      · rw [h, hc]; simp
    · simp only [List.mem_cons] at h ⊢
      tauto

theorem mem_insortD (x d : Date) (l : List Date) :
    x ∈ insortD d l ↔ x = d ∨ x ∈ l := by
  induction l with
  | nil => simp [insortD]
  | cons e es ih =>
    by_cases h1 : d < e
    · simp [insortD, h1, List.mem_cons]
    · by_cases h2 : d = e
      · subst h2
        simp [insortD, h1, List.mem_cons]
      · simp only [insortD, if_neg h1, if_neg h2, List.mem_cons, ih]
        tauto

theorem insortD_sorted (d : Date) (l : List Date)
    (h : l.Sorted (· < ·)) : (insortD d l).Sorted (· < ·) := by
  induction l with
  | nil => simp [insortD]
  | cons e es ih =>
    rw [List.sorted_cons] at h
    by_cases h1 : d < e
    · rw [insortD, if_pos h1, List.sorted_cons]
      refine ⟨?_, List.sorted_cons.mpr h⟩
      intro b hb
      rcases List.mem_cons.mp hb with hb | hb
      · exact hb ▸ h1
      · exact lt_trans h1 (h.1 b hb)
    · by_cases h2 : d = e
      · rw [insortD, if_neg h1, if_pos h2, List.sorted_cons]
        exact h
      · rw [insortD, if_neg h1, if_neg h2, List.sorted_cons]
        refine ⟨?_, ih h.2⟩
        intro b hb
        rcases (mem_insortD b d es).mp hb with hb | hb
        · subst hb
          exact lt_of_le_of_ne (not_lt.mp h1) (Ne.symm h2)
        · exact h.1 b hb

theorem foldr_insortD_sorted (l : List Date) :
    (l.foldr insortD []).Sorted (· < ·) := by
  induction l with
  | nil => simp
  | cons e es ih => exact insortD_sorted e _ ih

theorem mem_foldr_insortD (l : List Date) (x : Date) (h : x ∈ l) :
    x ∈ l.foldr insortD [] := by
  induction l with
  | nil => simp at h
  | cons e es ih =>
    rw [List.foldr_cons, mem_insortD]
    rcases List.mem_cons.mp h with h | h
    · exact Or.inl h
    · exact Or.inr (ih h)

theorem unionIndex_sorted (sl : List PSeries) :
    (unionIndex sl).Sorted (· < ·) :=
  foldr_insortD_sorted _

theorem mem_unionIndex (sl : List PSeries) (s : PSeries) (d : Date)
    (hs : s ∈ sl) (hd : d ∈ s.keys) : d ∈ unionIndex sl := by
  refine mem_foldr_insortD _ d ?_
  rw [List.mem_flatten]
  exact ⟨s.keys, List.mem_map.mpr ⟨s, hs, rfl⟩, hd⟩

theorem totalSeries_keys (sl : List PSeries) :
    (totalSeries sl).map Prod.fst = unionIndex sl := by
  simp [totalSeries, List.map_map, Function.comp_def]

theorem totalSeries_keys_sorted (sl : List PSeries) :
    ((totalSeries sl).map Prod.fst).Sorted (· < ·) := by
  rw [totalSeries_keys]
  exact unionIndex_sorted sl

theorem containsKeyQ_eq_false (l : List (Date × ℚ)) (d : Date)
    (h : ∀ e ∈ l, e.1 ≠ d) : containsKeyQ l d = false := by
  simp only [containsKeyQ, List.any_eq_false, decide_eq_true_eq]
  exact h

theorem setLocQ_of_absent (l : List (Date × ℚ)) (d : Date) (v : ℚ)
    (h : ∀ e ∈ l, e.1 ≠ d) : setLocQ l d v = l ++ [(d, v)] := by
  rw [setLocQ, containsKeyQ_eq_false l d h]
  simp

theorem sorted_leKeyQ_of_keys (l : List (Date × ℚ))
    (h : (l.map Prod.fst).Sorted (· < ·)) : l.Sorted leKeyQ := by
  rw [List.Sorted, List.pairwise_map] at h
  exact h.imp (fun hab => le_of_lt hab)

theorem sorted_leKeyQ_append (l : List (Date × ℚ)) (d : Date) (v : ℚ)
    (hs : l.Sorted leKeyQ) (h : ∀ e ∈ l, e.1 < d) :
    (l ++ [(d, v)]).Sorted leKeyQ := by
  rw [List.Sorted, List.pairwise_append]
  refine ⟨hs, List.pairwise_singleton _ _, ?_⟩
  intro a ha b hb
  rcases List.mem_singleton.mp hb with rfl
  exact le_of_lt (h a ha)

theorem sortIndexQ_of_sorted (l : List (Date × ℚ)) (h : l.Sorted leKeyQ) :
    sortIndexQ l = l :=
  List.Sorted.insertionSort_eq h

theorem maxKeyD_bound (l : List (Date × ℚ)) (mx : Date)
    (h : maxKeyD l = some mx) : ∀ k ∈ l.map Prod.fst, k ≤ mx := by
  rw [maxKeyD] at h
  cases hl : l.map Prod.fst with
  | nil => rw [hl] at h; exact absurd h (by simp)
  | cons d ds =>
    rw [hl] at h
    simp only [Option.some.injEq] at h
    intro k hk
    rcases List.mem_cons.mp hk with hk | hk
    · exact le_of_le_of_eq (le_foldl_max ds d k (Or.inl hk)) h
    · exact le_of_le_of_eq (le_foldl_max ds d k (Or.inr hk)) h

theorem updateTotal_append (assets : List Asset) (today : Date)
    (l : List (Date × ℚ)) (hsor : (l.map Prod.fst).Sorted (· < ·))
    (hne : l ≠ []) (hall : ∀ e ∈ l, e.1 < today) :
    updateTotal assets today l = l ++ [(today, latestTotalOf assets today)] := by
  obtain ⟨e0, l0, rfl⟩ : ∃ e0 l0, l = e0 :: l0 := by
    cases l with
    | nil => exact absurd rfl hne
    | cons e0 l0 => exact ⟨e0, l0, rfl⟩
  rw [updateTotal]
  have hmk : maxKeyD (e0 :: l0) = some ((l0.map Prod.fst).foldl max e0.1) := by
    simp [maxKeyD]
  rw [hmk]
  dsimp only
  have hmem : (l0.map Prod.fst).foldl max e0.1 ∈ (e0 :: l0).map Prod.fst := by
    simpa using foldl_max_mem (l0.map Prod.fst) e0.1
  have hmx : (l0.map Prod.fst).foldl max e0.1 < today := by
    rcases List.mem_map.mp hmem with ⟨e, he, heq⟩
    exact heq ▸ hall e he
  rw [if_pos hmx]
  rw [setLocQ_of_absent _ today _ (fun e he => ne_of_lt (hall e he))]
  exact sortIndexQ_of_sorted _
    (sorted_leKeyQ_append _ today _ (sorted_leKeyQ_of_keys _ hsor) hall)

theorem latestTotal_go (today : Date) (assets : List Asset) (acc : ℚ)
    (hpd : ∀ a ∈ assets, a.purchase_date.isSome) :
    assets.foldl
      (fun acc a =>
        if a.shares ≤ 0 then acc
        else
          match a.purchase_date with
          | some p => if today < p then acc else acc + a.shares * a.current_price
          | none => acc + a.shares * a.current_price) acc =
      acc + ((assets.filter fun a =>
          decide (0 < a.shares) && a.purchase_date.any fun p => decide (p ≤ today)).map
          fun a => a.shares * a.current_price).sum := by
  induction assets generalizing acc with
  | nil => simp
  | cons a rest ih =>
    have hpda : a.purchase_date.isSome := hpd a (List.mem_cons_self a rest)
    obtain ⟨p, hp⟩ : ∃ p, a.purchase_date = some p :=
      Option.isSome_iff_exists.mp hpda
    have hpdr : ∀ b ∈ rest, b.purchase_date.isSome :=
      fun b hb => hpd b (List.mem_cons_of_mem a hb)
    have ihr : ∀ acc2 : ℚ, _ := fun acc2 => ih acc2 hpdr
    rw [List.foldl_cons]
    by_cases hs : a.shares ≤ 0
    · have hfilt : (decide (0 < a.shares) &&
          a.purchase_date.any fun p => decide (p ≤ today)) = false := by
        simp [not_lt.mpr hs]
      rw [if_pos hs, ihr, List.filter_cons, hfilt]
      simp
    · rw [if_neg hs, hp]
      dsimp only
      by_cases hf : today < p
      · have hfilt : (decide (0 < a.shares) &&
            a.purchase_date.any fun p => decide (p ≤ today)) = false := by
          simp [hp, not_le.mpr hf]
        rw [if_pos hf, ihr, List.filter_cons, hfilt]
        simp
      · have hfilt : (decide (0 < a.shares) &&
            a.purchase_date.any fun p => decide (p ≤ today)) = true := by
          simp [hp, not_le.mp hs, not_lt.mp hf]
        rw [if_neg hf, ihr, List.filter_cons, hfilt]
        simp only [if_true, List.map_cons, List.sum_cons]
        ring

theorem latestTotalOf_eq (assets : List Asset) (today : Date)
    (hpd : ∀ a ∈ assets, a.purchase_date.isSome) :
    latestTotalOf assets today =
      ((assets.filter fun a =>
          decide (0 < a.shares) && a.purchase_date.any fun p => decide (p ≤ today)).map
        fun a => a.shares * a.current_price).sum := by
  rw [latestTotalOf, latestTotal_go today assets 0 hpd, zero_add]

/-- C8: for any input set of per-holding value series, the date index of the
total series built by `update_total_worth_graph` (the union of all
per-holding dates plus the optional synthetic today entry) is strictly
ascending, hence duplicate-free. -/
theorem total_index_strictly_ascending (assets : List Asset) (today : Date)
    (sl : List PSeries) :
    ((updateTotal assets today (totalSeries sl)).map Prod.fst).Sorted (· < ·) := by
  have hsor := totalSeries_keys_sorted sl
  cases hmk : maxKeyD (totalSeries sl) with
  | none =>
    rw [updateTotal, hmk]
    exact hsor
  | some mx =>
    by_cases hlt : mx < today
    · have hne : totalSeries sl ≠ [] := by
        intro h0
        rw [h0] at hmk
        simp [maxKeyD] at hmk
      have hall : ∀ e ∈ totalSeries sl, e.1 < today := fun e he =>
        lt_of_le_of_lt
          (maxKeyD_bound _ mx hmk e.1 (List.mem_map.mpr ⟨e, he, rfl⟩)) hlt
      rw [updateTotal_append assets today _ hsor hne hall, List.map_append]
      rw [List.Sorted, List.pairwise_append]
      refine ⟨hsor, List.pairwise_singleton _ _, ?_⟩
      intro x hx y hy
      rcases List.mem_map.mp hx with ⟨e, he, rfl⟩
      rcases List.mem_singleton.mp hy with rfl
      exact hall e he
    · rw [updateTotal, hmk]
      dsimp only
      rw [if_neg hlt]
      exact hsor

/-- C5: when the latest date of the unioned total series is strictly before
today, exactly one synthetic entry for today is appended, its value is
`Σ shares × current_price` over holdings with positive shares and
`purchase_date ≤ today` (using each holding's stored static current price),
and the series stays sorted by date after the insertion. -/
theorem today_snapshot_append (assets : List Asset) (today : Date)
    (sl : List PSeries) (hne : totalSeries sl ≠ [])
    (hall : ∀ d ∈ (totalSeries sl).map Prod.fst, d < today)
    (hpd : ∀ a ∈ assets, a.purchase_date.isSome) :
    updateTotal assets today (totalSeries sl) =
      totalSeries sl ++
        [(today, ((assets.filter fun a =>
            decide (0 < a.shares) && a.purchase_date.any fun p => decide (p ≤ today)).map
            fun a => a.shares * a.current_price).sum)] := by
  have hall2 : ∀ e ∈ totalSeries sl, e.1 < today := fun e he =>
    hall e.1 (List.mem_map.mpr ⟨e, he, rfl⟩)
  rw [updateTotal_append assets today _ (totalSeries_keys_sorted sl) hne hall2,
    latestTotalOf_eq assets today hpd]

/-- Witness for C5 at a concrete input: one CHF holding bought at day 0 with
current price 2 and a single-point series; today is day 5. -/
theorem today_snapshot_append_witness :
    (totalSeries [⟨[((0 : Date), some (1 : ℚ))]⟩] ≠ [] ∧
      (∀ d ∈ (totalSeries [⟨[((0 : Date), some (1 : ℚ))]⟩]).map Prod.fst, d < 5) ∧
      (∀ a ∈ [Asset.mk "A" 1 1 2 (some 0)], a.purchase_date.isSome)) ∧
    updateTotal [Asset.mk "A" 1 1 2 (some 0)] 5
        (totalSeries [⟨[((0 : Date), some (1 : ℚ))]⟩]) =
      totalSeries [⟨[((0 : Date), some (1 : ℚ))]⟩] ++
        [((5 : Date), (([Asset.mk "A" 1 1 2 (some 0)].filter fun a =>
            decide (0 < a.shares) && a.purchase_date.any fun p => decide (p ≤ (5 : Date))).map
            fun a => a.shares * a.current_price).sum)] :=
  ⟨⟨by decide, by decide, by decide⟩,
    today_snapshot_append [Asset.mk "A" 1 1 2 (some 0)] 5
      [⟨[((0 : Date), some (1 : ℚ))]⟩] (by decide) (by decide) (by decide)⟩

theorem setLoc_key_val (s : PSeries) (p : Date) (c : ℚ) :
    ∀ e ∈ (s.setLoc p c).entries, e.1 = p → e.2 = some c := by
  intro e he hep
  rw [PSeries.setLoc] at he
  by_cases hc : s.containsKey p = true
  · rw [if_pos hc] at he
    rcases List.mem_map.mp he with ⟨f, hf, hfe⟩
    by_cases hfp : f.1 = p
    · rw [if_pos hfp] at hfe
      rw [← hfe]
    · rw [if_neg hfp] at hfe
      rw [← hfe] at hep
      exact absurd hep hfp
  · rw [if_neg hc] at he
    rcases List.mem_append.mp he with hf | hf
    · exfalso
      refine hc ?_
      rw [PSeries.containsKey]
      exact List.any_eq_true.mpr ⟨e, hf, by simp [hep]⟩
    · rw [List.mem_singleton.mp hf]

theorem setLoc_mem (s : PSeries) (p : Date) (c : ℚ) :
    (p, some c) ∈ (s.setLoc p c).entries := by
  rw [PSeries.setLoc]
  by_cases hc : s.containsKey p = true
  · rw [if_pos hc]
    rw [PSeries.containsKey, List.any_eq_true] at hc
    rcases hc with ⟨f, hf, hfp⟩
    simp only [decide_eq_true_eq] at hfp
    exact List.mem_map.mpr ⟨f, hf, by rw [if_pos hfp]⟩
  · rw [if_neg hc]
    exact List.mem_append.mpr (Or.inr (List.mem_singleton.mpr rfl))

theorem setLoc_entries_ne_nil (s : PSeries) (p : Date) (c : ℚ) :
    (s.setLoc p c).entries ≠ [] :=
  List.ne_nil_of_mem (setLoc_mem s p c)

theorem setLoc_keys_bound (s : PSeries) (p : Date) (c : ℚ)
    (h : ∀ e ∈ s.entries, p ≤ e.1) :
    ∀ e ∈ (s.setLoc p c).entries, p ≤ e.1 := by
  intro e he
  rw [PSeries.setLoc] at he
  by_cases hc : s.containsKey p = true
  · rw [if_pos hc] at he
    rcases List.mem_map.mp he with ⟨f, hf, hfe⟩
    by_cases hfp : f.1 = p
    · rw [if_pos hfp] at hfe
      rw [← hfe]
    · rw [if_neg hfp] at hfe
      exact hfe ▸ h f hf
  · rw [if_neg hc] at he
    rcases List.mem_append.mp he with hf | hf
    · exact h e hf
    · rw [List.mem_singleton.mp hf]

theorem filterGE_keys_bound (s : PSeries) (p : Date) :
    ∀ e ∈ (s.filterGE p).entries, p ≤ e.1 := by
  intro e he
  rw [PSeries.filterGE] at he
  have := List.of_mem_filter he
  simpa using this

theorem sortIndex_perm (s : PSeries) :
    (s.sortIndex).entries.Perm s.entries :=
  List.perm_insertionSort PSeries.leKey s.entries

theorem sortIndex_sorted (s : PSeries) :
    (s.sortIndex).entries.Sorted PSeries.leKey :=
  List.sorted_insertionSort PSeries.leKey s.entries

theorem lookup_eq_of_uniform (s : PSeries) (p : Date) (c : ℚ)
    (hex : ∃ e ∈ s.entries, e.1 = p)
    (hall : ∀ e ∈ s.entries, e.1 = p → e.2 = some c) :
    s.lookup p = some c := by
  rw [PSeries.lookup]
  have hsome : (s.entries.find? fun e => decide (e.1 = p)).isSome := by
    rw [List.find?_isSome]
    rcases hex with ⟨e, he, hep⟩
    exact ⟨e, he, by simp [hep]⟩
  rcases Option.isSome_iff_exists.mp hsome with ⟨e, hfind⟩
  rw [hfind]
  have hep : e.1 = p := by
    have := List.find?_some hfind
    simpa using this
  exact hall e (List.mem_of_find?_eq_some hfind) hep

theorem anchored_lookup (s : PSeries) (p : Date) (c : ℚ) :
    ((s.setLoc p c).sortIndex).lookup p = some c := by
  refine lookup_eq_of_uniform _ p c ?_ ?_
  · exact ⟨(p, some c), (sortIndex_perm _).mem_iff.mpr (setLoc_mem s p c), rfl⟩
  · intro e he hep
    exact setLoc_key_val s p c e ((sortIndex_perm _).mem_iff.mp he) hep

theorem finishHolding_eq (a : Asset) (p : Date) (c2 : PSeries)
    (hpd : a.purchase_date = some p) (hP : 0 < a.price) :
    finishHolding a c2 =
      some ((((c2.scale a.shares).filterGE p).setLoc p
        (a.shares * a.price)).sortIndex) := by
  rw [finishHolding, hpd]
  dsimp only
  rw [if_pos hP]
  have hne : ((((c2.scale a.shares).filterGE p).setLoc p
      (a.shares * a.price)).sortIndex).entries.length ≠ 0 := by
    intro h0
    rw [List.length_eq_zero] at h0
    have hperm := sortIndex_perm (((c2.scale a.shares).filterGE p).setLoc p
      (a.shares * a.price))
    rw [h0] at hperm
    exact setLoc_entries_ne_nil _ _ _ (List.Perm.nil_eq hperm).symm
  rw [if_neg hne]

theorem anchored_series_props (s : PSeries) (p : Date) (c : ℚ) :
    ((s.filterGE p).setLoc p c).sortIndex.lookup p = some c ∧
      (p, some c) ∈ ((s.filterGE p).setLoc p c).sortIndex.entries ∧
      ((s.filterGE p).setLoc p c).sortIndex.entries.Sorted PSeries.leKey ∧
      ∀ e ∈ ((s.filterGE p).setLoc p c).sortIndex.entries, p ≤ e.1 := by
  refine ⟨anchored_lookup _ p c,
    (sortIndex_perm _).mem_iff.mpr (setLoc_mem _ p c), sortIndex_sorted _, ?_⟩
  intro e he
  exact setLoc_keys_bound _ p c (filterGE_keys_bound s p) e
    ((sortIndex_perm _).mem_iff.mp he)

/-- C1: a holding with positive shares and purchase price whose price
download succeeds produces a value series whose value at exactly the
purchase date is `shares × purchase_price` (inserted or overwritten), with
the series sorted by date and trimmed to dates ≥ the purchase date. -/
theorem holding_series_anchors_purchase_price (m : Market) (startD endD : Date)
    (a : Asset) (p : Date) (cl : List (Date × ℚ))
    (hT : a.ticker ≠ "") (hS : 0 < a.shares) (hP : 0 < a.price)
    (hpd : a.purchase_date = some p) (hcl : m.close a.ticker = some cl)
    (hfx : m.tickerCurrency a.ticker ≠ "CHF" →
      (get_fx_series_to_chf m (m.tickerCurrency a.ticker) startD endD).isSome) :
    ∃ v, holdingSeries m startD endD a = .ok (some v) ∧
      v.lookup p = some (a.shares * a.price) ∧
      (p, some (a.shares * a.price)) ∈ v.entries ∧
      v.entries.Sorted PSeries.leKey ∧
      ∀ e ∈ v.entries, p ≤ e.1 := by
  rw [holdingSeries, if_neg hT, if_neg (not_le.mpr hS), hcl]
  dsimp only
  by_cases hc : m.tickerCurrency a.ticker ≠ "CHF"
  · rcases Option.isSome_iff_exists.mp (hfx hc) with ⟨fx0, hfx0⟩
    rw [if_pos hc, hfx0]
    dsimp only
    rw [finishHolding_eq a p _ hpd hP]
    exact ⟨_, rfl, anchored_series_props _ p _⟩
  · rw [if_neg hc]
    rw [finishHolding_eq a p _ hpd hP]
    exact ⟨_, rfl, anchored_series_props _ p _⟩

theorem mAnchor_fx_isSome :
    (get_fx_series_to_chf mAnchor (mAnchor.tickerCurrency aAnchor.ticker)
      0 2).isSome = true := by
  decide

/-- Witness for C1: a USD holding with concrete prices and FX data. -/
theorem holding_series_anchors_witness :
    (aAnchor.ticker ≠ "" ∧ (0 : ℚ) < aAnchor.shares ∧ (0 : ℚ) < aAnchor.price ∧
      aAnchor.purchase_date = some 0 ∧
      mAnchor.close aAnchor.ticker = some [(0, 10), (1, 12)] ∧
      (mAnchor.tickerCurrency aAnchor.ticker ≠ "CHF" →
        (get_fx_series_to_chf mAnchor (mAnchor.tickerCurrency aAnchor.ticker)
          0 2).isSome)) ∧
    ∃ v, holdingSeries mAnchor 0 2 aAnchor = .ok (some v) ∧
      v.lookup 0 = some (aAnchor.shares * aAnchor.price) ∧
      ((0 : Date), some (aAnchor.shares * aAnchor.price)) ∈ v.entries ∧
      v.entries.Sorted PSeries.leKey ∧
      ∀ e ∈ v.entries, (0 : Date) ≤ e.1 :=
  ⟨⟨by decide, by decide, by decide, by decide, by decide, fun h => mAnchor_fx_isSome⟩,
    holding_series_anchors_purchase_price mAnchor 0 2 aAnchor 0 [(0, 10), (1, 12)]
      (by decide) (by decide) (by decide) (by decide) (by decide) (fun h => mAnchor_fx_isSome)⟩

/-- C7: the chart's y-range is `[min - pad, max + pad]` with `pad = 5%` of
`max - min`, except that a range below the `1e-9` tolerance gets a fixed
unit pad; in particular `[100, 100, 100] ↦ (99, 101)` and
`[100, 200] ↦ (95, 205)`. -/
theorem chart_y_range (v : ℚ) (vs : List ℚ) (m M : ℚ)
    (hm : m ∈ v :: vs) (hmle : ∀ x ∈ v :: vs, m ≤ x)
    (hM : M ∈ v :: vs) (hMge : ∀ x ∈ v :: vs, x ≤ M) :
    chartBounds (v :: vs) =
      (if |M - m| < 1 / 1000000000 then (m - 1, M + 1)
       else (m - 0.05 * (M - m), M + 0.05 * (M - m))) ∧
    chartBounds [100, 100, 100] = (99, 101) ∧
    chartBounds [100, 200] = (95, 205) := by
  refine ⟨?_, by norm_num [chartBounds], by norm_num [chartBounds]⟩
  have hmin : vs.foldl min v = m := by
    refine le_antisymm (foldl_min_le vs v m ?_) (hmle _ ?_)
    · rcases List.mem_cons.mp hm with h | h
      · exact Or.inl h
      · exact Or.inr h
    · exact foldl_min_mem vs v
  have hmax : vs.foldl max v = M := by
    refine le_antisymm (hMge _ ?_) (le_foldl_max vs v M ?_)
    · exact foldl_max_mem vs v
    · rcases List.mem_cons.mp hM with h | h
      · exact Or.inl h
      · exact Or.inr h
  simp only [chartBounds]
  rw [hmin, hmax]

/-- Witness for C7 at the concrete values `[100, 200]`. -/
theorem chart_y_range_witness :
    ((100 : ℚ) ∈ [(100 : ℚ), 200] ∧ (∀ x ∈ [(100 : ℚ), 200], 100 ≤ x) ∧
      (200 : ℚ) ∈ [(100 : ℚ), 200] ∧ (∀ x ∈ [(100 : ℚ), 200], x ≤ 200)) ∧
    (chartBounds [(100 : ℚ), 200] =
      (if |(200 : ℚ) - 100| < 1 / 1000000000 then ((100 : ℚ) - 1, (200 : ℚ) + 1)
       else (100 - 0.05 * (200 - 100), 200 + 0.05 * (200 - 100))) ∧
    chartBounds [100, 100, 100] = (99, 101) ∧
    chartBounds [100, 200] = (95, 205)) :=
  ⟨⟨by decide, by decide, by decide, by decide⟩,
    chart_y_range 100 [200] 100 200 (by decide) (by decide) (by decide) (by decide)⟩

theorem chartBounds_fst_lt_snd (v : ℚ) (vs : List ℚ) :
    (chartBounds (v :: vs)).1 < (chartBounds (v :: vs)).2 := by
  have hmn : vs.foldl min v ≤ v := foldl_min_self vs v
  have hmx : v ≤ vs.foldl max v := foldl_max_self vs v
  have hle : vs.foldl min v ≤ vs.foldl max v := le_trans hmn hmx
  simp only [chartBounds]
  split_ifs with h
  · simp only
    linarith
  · simp only
    have habs : |vs.foldl max v - vs.foldl min v| =
        vs.foldl max v - vs.foldl min v := abs_of_nonneg (by linarith)
    rw [habs] at h
    push_neg at h
    have : (0 : ℚ) < vs.foldl max v - vs.foldl min v := lt_of_lt_of_le (by norm_num) h
    linarith

theorem descending_map_range (t step : ℚ) (hs : 0 < step) (n : ℕ) :
    List.Sorted (· > ·) ((List.range n).map fun i : ℕ => t - (i : ℚ) * step) := by
  rw [List.Sorted, List.pairwise_map]
  refine (List.pairwise_lt_range n).imp ?_
  intro i j hij
  have hmul : (i : ℚ) * step < (j : ℚ) * step :=
    mul_lt_mul_of_pos_right (by exact_mod_cast hij) hs
  exact sub_lt_sub_left hmul t

/-- Counterexample to C3: for the rendered bounds of the concrete total
values `[100, 200]`, the y-axis label column has 9 entries, not 8. -/
theorem y_axis_label_count_counterexample :
    ¬(yAxisLabelValues (chartBounds [(100 : ℚ), 200]).1
        (chartBounds [(100 : ℚ), 200]).2).length = 8 := by
  simp only [yAxisLabelValues, List.length_map, List.length_reverse,
    List.length_range]
  norm_num

/-- C3 as amended: for every non-empty list of plotted values, the label
column has exactly 9 evenly spaced entries, descending from `max_y` at the
top to `min_y` at the bottom in steps of `(max_y - min_y) / 8`. -/
theorem y_axis_labels_amended (v : ℚ) (vs : List ℚ) :
    (yAxisLabelValues (chartBounds (v :: vs)).1 (chartBounds (v :: vs)).2).length = 9 ∧
    yAxisLabelValues (chartBounds (v :: vs)).1 (chartBounds (v :: vs)).2 =
      (List.range 9).map (fun i : ℕ => (chartBounds (v :: vs)).2 -
        (i : ℚ) * (((chartBounds (v :: vs)).2 - (chartBounds (v :: vs)).1) / 8)) ∧
    List.Sorted (· > ·)
      (yAxisLabelValues (chartBounds (v :: vs)).1 (chartBounds (v :: vs)).2) := by
  have hlt := chartBounds_fst_lt_snd v vs
  set mny := (chartBounds (v :: vs)).1 with hmny
  set mxy := (chartBounds (v :: vs)).2 with hmxy
  have hrng : 0 < mxy - mny := by linarith
  have heq : yAxisLabelValues mny mxy =
      (List.range 9).map (fun i : ℕ => mxy - (i : ℚ) * ((mxy - mny) / 8)) := by
    rw [yAxisLabelValues]
    simp only [if_pos hrng]
    have h9 : List.range 9 = [0, 1, 2, 3, 4, 5, 6, 7, 8] := rfl
    rw [h9]
    simp only [List.reverse_cons, List.reverse_nil, List.nil_append,
      List.cons_append, List.map_cons, List.map_nil, List.cons.injEq, and_true]
    norm_num
    refine ⟨by ring, by ring, by ring, by ring, by ring, by ring, by ring,
      by ring, by ring⟩
  refine ⟨?_, heq, ?_⟩
  · rw [heq, List.length_map, List.length_range]
  · rw [heq]
    exact descending_map_range mxy ((mxy - mny) / 8) (by positivity) 9

theorem holdingSeries_nonpos (m : Market) (startD endD : Date) (a : Asset)
    (hs : a.shares ≤ 0) : holdingSeries m startD endD a = .ok none := by
  rw [holdingSeries]
  by_cases ht : a.ticker = ""
  · rw [if_pos ht]
  · rw [if_neg ht, if_pos hs]

theorem seriesList_filter_nonpos (m : Market) (startD endD : Date)
    (l : List Asset) :
    seriesList m startD endD (l.filter fun a => decide (0 < a.shares)) =
      seriesList m startD endD l := by
  induction l with
  | nil => rfl
  | cons a rest ih =>
    by_cases hs : a.shares ≤ 0
    · have hfilt : decide (0 < a.shares) = false := by
        simp [not_lt.mpr hs]
      rw [List.filter_cons, hfilt]
      simp only [Bool.false_eq_true, if_false]
      rw [seriesList, holdingSeries_nonpos m startD endD a hs]
      exact ih
    · have hfilt : decide (0 < a.shares) = true := by
        simp [not_le.mp hs]
      rw [List.filter_cons, hfilt]
      simp only [if_true]
      simp only [seriesList]
      cases h : holdingSeries m startD endD a with
      | error u => rfl
      | ok o =>
        cases o with
        | none => exact ih
        | some s => rw [ih]

theorem summary_go_filter_nonpos (l : List Asset) (acc : ℚ × ℚ) :
    (l.filter fun a => decide (0 < a.shares)).foldl
      (fun acc a =>
        if a.shares ≤ 0 then acc
        else (acc.1 + a.shares * a.price, acc.2 + a.shares * a.current_price))
      acc =
    l.foldl
      (fun acc a =>
        if a.shares ≤ 0 then acc
        else (acc.1 + a.shares * a.price, acc.2 + a.shares * a.current_price))
      acc := by
  induction l generalizing acc with
  | nil => rfl
  | cons a rest ih =>
    by_cases hs : a.shares ≤ 0
    · have hfilt : decide (0 < a.shares) = false := by
        simp [not_lt.mpr hs]
      rw [List.filter_cons, hfilt]
      simp only [Bool.false_eq_true, if_false]
      rw [List.foldl_cons, if_pos hs]
      exact ih acc
    · have hfilt : decide (0 < a.shares) = true := by
        simp [not_le.mp hs]
      rw [List.filter_cons, hfilt]
      simp only [if_true]
      rw [List.foldl_cons, List.foldl_cons]
      exact ih _

/-- C9: holdings with shares ≤ 0 are excluded both from value-series
construction and from the summary totals: removing them from the assets
list changes neither result. -/
theorem nonpositive_shares_excluded (m : Market) (startD endD : Date)
    (assets : List Asset) :
    seriesList m startD endD (assets.filter fun a => decide (0 < a.shares)) =
      seriesList m startD endD assets ∧
    summaryTotals (assets.filter fun a => decide (0 < a.shares)) =
      summaryTotals assets :=
  ⟨seriesList_filter_nonpos m startD endD assets,
    summary_go_filter_nonpos assets (0, 0)⟩

/-- C10: `delete_asset` removes exactly the first holding (in list order)
whose ticker matches; with no match the list is unchanged, and any later
holdings with the same ticker stay. -/
theorem delete_asset_removes_first_match (t : String) (l : List Asset) :
    ((∀ a ∈ l, a.ticker ≠ t) → delete_asset t l = l) ∧
    (∀ l1 (a : Asset) l2, l = l1 ++ a :: l2 → a.ticker = t →
      (∀ b ∈ l1, b.ticker ≠ t) → delete_asset t l = l1 ++ l2) := by
  constructor
  · intro h
    induction l with
    | nil => rfl
    | cons a rest ih =>
      rw [delete_asset, if_neg (h a (List.mem_cons_self a rest))]
      rw [ih (fun b hb => h b (List.mem_cons_of_mem a hb))]
  · intro l1 a l2 hl hat hl1
    subst hl
    induction l1 with
    | nil =>
      rw [List.nil_append, delete_asset, if_pos hat, List.nil_append]
    | cons b bs ih =>
      rw [List.cons_append, delete_asset,
        if_neg (hl1 b (List.mem_cons_self b bs)),
        ih (fun c hc => hl1 c (List.mem_cons_of_mem b hc)), List.cons_append]

/-- Witness for C10: deleting ticker `Y` from `[X, Y, Y]` removes only the
first `Y` and keeps the later one. -/
theorem delete_asset_removes_first_match_witness :
    ((Asset.mk "Y" 1 1 1 (some 0)).ticker = "Y" ∧
      (∀ b ∈ [Asset.mk "X" 1 1 1 (some 0)], b.ticker ≠ "Y")) ∧
    delete_asset "Y"
        [Asset.mk "X" 1 1 1 (some 0), Asset.mk "Y" 1 1 1 (some 0),
          Asset.mk "Y" 2 2 2 (some 1)] =
      [Asset.mk "X" 1 1 1 (some 0)] ++ [Asset.mk "Y" 2 2 2 (some 1)] :=
  ⟨⟨by decide, by decide⟩,
    (delete_asset_removes_first_match "Y"
        [Asset.mk "X" 1 1 1 (some 0), Asset.mk "Y" 1 1 1 (some 0),
          Asset.mk "Y" 2 2 2 (some 1)]).2
      [Asset.mk "X" 1 1 1 (some 0)] (Asset.mk "Y" 1 1 1 (some 0))
      [Asset.mk "Y" 2 2 2 (some 1)] rfl rfl (by decide)⟩

/-- C2: the pence-scaling divergence at a concrete input.  For a ticker whose
raw Yahoo currency is `GBp`, `get_current_price` divides the 100-pence quote
by 100 (yielding 1 CHF at a unit FX rate), but the historical path of
`update_total_worth_graph` applies no such division: the same 100-pence
close on day 1 enters the value series as 100, not 1. -/
theorem gbp_pence_scaling_divergence :
    get_current_price gbpQuote []
        (fun c => if c = "GBP" then some 1 else none) = some 1 ∧
    (holdingSeries mGbp 0 2 aGbp).toOption =
      some (some ⟨[(0, some 1), (1, some 100)]⟩) := by
  constructor
  · norm_num [get_current_price, gbpQuote, pyOrQ,
      show normalize_ccy (some "GBp") = "GBP" from by decide,
      show normalize_ccy (some "GBP") = "GBP" from by decide]
  · simp [holdingSeries, mGbp, aGbp, get_fx_series_to_chf,
      show normalize_ccy (some "GBP") = "GBP" from by decide,
      finishHolding, PSeries.mulSeries, PSeries.reindex, PSeries.ffill,
      PSeries.ffillGo, PSeries.lookup, PSeries.keys, PSeries.scale,
      PSeries.filterGE, PSeries.setLoc, PSeries.containsKey,
      PSeries.sortIndex, PSeries.leKey]
    norm_num
    rfl

/-- Counterexample to C4: for ticker `A` the FX series starts only at day 2,
so day 1 has no FX value and no prior one; yet day 1 is not dropped from the
holding's value series (it stays with a missing value), and it appears in
the total series with the forward-filled value 5 of the day-0 anchor. -/
theorem fx_gap_date_not_dropped :
    (holdingSeries mFx 0 3 aFx).toOption =
      some (some ⟨[(0, some 5), (1, none), (2, some 60)]⟩) ∧
    (1 : Date) ∈ PSeries.keys ⟨[(0, some 5), (1, none), (2, some 60)]⟩ ∧
    ((1 : Date), (5 : ℚ)) ∈
      totalSeries [⟨[(0, some 5), (1, none), (2, some 60)]⟩] := by
  refine ⟨?_, by decide, ?_⟩
  · simp [holdingSeries, mFx, aFx, get_fx_series_to_chf,
      show normalize_ccy (some "USD") = "USD" from by decide,
      finishHolding, PSeries.mulSeries, PSeries.reindex, PSeries.ffill,
      PSeries.ffillGo, PSeries.lookup, PSeries.keys, PSeries.scale,
      PSeries.filterGE, PSeries.setLoc, PSeries.containsKey,
      PSeries.sortIndex, PSeries.leKey]
    norm_num
    rfl
  · norm_num [totalSeries, unionIndex, insortD, PSeries.keys, PSeries.reindex,
      PSeries.ffill, PSeries.ffillGo, PSeries.lookup]

theorem setLoc_keys_mem (s : PSeries) (p d : Date) (c : ℚ)
    (hd : d ∈ s.keys) : d ∈ (s.setLoc p c).keys := by
  rw [PSeries.keys] at hd
  rcases List.mem_map.mp hd with ⟨e, he, hde⟩
  rw [PSeries.setLoc]
  by_cases hc : s.containsKey p = true
  · rw [if_pos hc, PSeries.keys]
    refine List.mem_map.mpr ⟨if e.1 = p then (p, some c) else e,
      List.mem_map.mpr ⟨e, he, rfl⟩, ?_⟩
    by_cases hep : e.1 = p
    · rw [if_pos hep, ← hde, hep]
    · rw [if_neg hep]
      exact hde
  · rw [if_neg hc, PSeries.keys]
    rw [List.map_append]
    exact List.mem_append.mpr (Or.inl (List.mem_map.mpr ⟨e, he, hde⟩))

theorem sortIndex_keys_mem (s : PSeries) (d : Date) (hd : d ∈ s.keys) :
    d ∈ s.sortIndex.keys := by
  rw [PSeries.keys] at hd ⊢
  exact ((sortIndex_perm s).map Prod.fst).mem_iff.mpr hd

theorem scale_keys (s : PSeries) (c : ℚ) : (s.scale c).keys = s.keys := by
  simp only [PSeries.scale, PSeries.keys, List.map_map]
  rfl

theorem mulSeries_keys (s t : PSeries) : (s.mulSeries t).keys = s.keys := by
  simp only [PSeries.mulSeries, PSeries.keys, List.map_map]
  rfl

theorem finish_keys_mem (s : PSeries) (p : Date) (c : ℚ) (d : Date)
    (hd : d ∈ s.keys) (hpd : p ≤ d) :
    d ∈ ((s.filterGE p).setLoc p c).sortIndex.keys := by
  refine sortIndex_keys_mem _ d (setLoc_keys_mem _ p d c ?_)
  rw [PSeries.keys] at hd
  rcases List.mem_map.mp hd with ⟨e, he, hde⟩
  rw [PSeries.keys, PSeries.filterGE]
  refine List.mem_map.mpr ⟨e, List.mem_filter.mpr ⟨he, ?_⟩, hde⟩
  simp only [decide_eq_true_eq]
  rw [hde]
  exact hpd

theorem mk_close_keys (cl : List (Date × ℚ)) :
    (⟨cl.map fun e => (e.1, some e.2)⟩ : PSeries).keys = cl.map Prod.fst := by
  simp only [PSeries.keys, List.map_map]
  rfl

/-- C4 as amended: a date of the downloaded price series on or after the
purchase date is never dropped from the holding's value series — even when
the FX series has no value on or before it, the date stays in the series
(with a missing value) and appears in the date index of the total series. -/
theorem fx_gap_date_retained (m : Market) (startD endD : Date) (a : Asset)
    (p d : Date) (cl : List (Date × ℚ))
    (hT : a.ticker ≠ "") (hS : 0 < a.shares) (hP : 0 < a.price)
    (hpd : a.purchase_date = some p) (hcl : m.close a.ticker = some cl)
    (hfx : m.tickerCurrency a.ticker ≠ "CHF" →
      (get_fx_series_to_chf m (m.tickerCurrency a.ticker) startD endD).isSome)
    (hd : d ∈ cl.map Prod.fst) (hpdle : p ≤ d) :
    ∃ v, holdingSeries m startD endD a = .ok (some v) ∧ d ∈ v.keys ∧
      ∀ sl, v ∈ sl → d ∈ (totalSeries sl).map Prod.fst := by
  rw [holdingSeries, if_neg hT, if_neg (not_le.mpr hS), hcl]
  dsimp only
  by_cases hc : m.tickerCurrency a.ticker ≠ "CHF"
  · rcases Option.isSome_iff_exists.mp (hfx hc) with ⟨fx0, hfx0⟩
    rw [if_pos hc, hfx0]
    dsimp only
    rw [finishHolding_eq a p _ hpd hP]
    refine ⟨_, rfl, ?_, ?_⟩
    · refine finish_keys_mem _ p _ d ?_ hpdle
      rw [scale_keys, mulSeries_keys, mk_close_keys]
      exact hd
    · intro sl hv
      rw [totalSeries_keys]
      refine mem_unionIndex sl _ d hv ?_
      refine finish_keys_mem _ p _ d ?_ hpdle
      rw [scale_keys, mulSeries_keys, mk_close_keys]
      exact hd
  · rw [if_neg hc]
    rw [finishHolding_eq a p _ hpd hP]
    refine ⟨_, rfl, ?_, ?_⟩
    · refine finish_keys_mem _ p _ d ?_ hpdle
      rw [scale_keys, mk_close_keys]
      exact hd
    · intro sl hv
      rw [totalSeries_keys]
      refine mem_unionIndex sl _ d hv ?_
      refine finish_keys_mem _ p _ d ?_ hpdle
      rw [scale_keys, mk_close_keys]
      exact hd

/-- Witness for the amended C4 at the concrete FX-gap market: day 1 of
ticker `A` is retained. -/
theorem fx_gap_date_retained_witness :
    (aFx.ticker ≠ "" ∧ (0 : ℚ) < aFx.shares ∧ (0 : ℚ) < aFx.price ∧
      aFx.purchase_date = some 0 ∧
      mFx.close aFx.ticker = some [(0, 10), (1, 20), (2, 30)] ∧
      (mFx.tickerCurrency aFx.ticker ≠ "CHF" →
        (get_fx_series_to_chf mFx (mFx.tickerCurrency aFx.ticker) 0 3).isSome) ∧
      (1 : Date) ∈ ([((0 : Date), (10 : ℚ)), (1, 20), (2, 30)]).map Prod.fst ∧
      (0 : Date) ≤ 1) ∧
    ∃ v, holdingSeries mFx 0 3 aFx = .ok (some v) ∧ (1 : Date) ∈ v.keys ∧
      ∀ sl, v ∈ sl → (1 : Date) ∈ (totalSeries sl).map Prod.fst :=
  ⟨⟨by decide, by decide, by decide, by decide, by decide, fun h => by decide,
      by decide, by decide⟩,
    fx_gap_date_retained mFx 0 3 aFx 0 1 [(0, 10), (1, 20), (2, 30)]
      (by decide) (by decide) (by decide) (by decide) (by decide)
      (fun h => by decide) (by decide) (by decide)⟩

/-- Counterexample to C6: a well-formed input whose purchase date (day 3)
precedes the ticker's first price date (day 10) is rejected, but only after
the current-price and first-date retrievals have been performed — not
before any external data retrieval. -/
theorem pre_listing_rejected_after_retrieval :
    on_add_click ⟨some 5, some 10⟩ 20 "A" 1 1 (some 3) =
      ([.currentPrice, .firstDate], .rejected) ∧
    (on_add_click ⟨some 5, some 10⟩ 20 "A" 1 1 (some 3)).1 ≠ [] := by
  constructor
  · rfl
  · intro h
    simp only [on_add_click] at h
    revert h
    decide

/-- C6 as amended: non-positive shares or price, a missing date and a future
purchase date are rejected with no external retrieval; a purchase date
before the ticker's first available price date also causes the holding not
to be appended, but that check runs after the current-price and
first-trade-date retrievals. -/
theorem add_asset_validation (o : AddOracle) (today : Date) (ticker : String)
    (shares price : ℚ) (pdate : Option Date) :
    ((shares ≤ 0 ∨ price ≤ 0 ∨ pdate = none ∨
        (∃ p, pdate = some p ∧ today < p)) →
      on_add_click o today ticker shares price pdate = ([], .rejected)) ∧
    (∀ p fd, pdate = some p → o.first_date = some fd → p < fd →
      (on_add_click o today ticker shares price pdate).2 = .rejected) := by
  constructor
  · intro h
    rw [on_add_click.eq_def]
    by_cases hv : pyStrip ticker ≠ "" ∧ 0 < shares ∧ 0 < price ∧ pdate.isSome
    · rw [if_neg (not_not_intro hv)]
      rcases h with h | h | h | h
      · exact absurd hv.2.1 (not_lt.mpr h)
      · exact absurd hv.2.2.1 (not_lt.mpr h)
      · rw [h]
      · rcases h with ⟨p, hp, hfut⟩
        rw [hp]
        dsimp only
        rw [if_pos hfut]
    · rw [if_pos hv]
  · intro p fd hp hfd hlt
    rw [on_add_click.eq_def]
    by_cases hv : pyStrip ticker ≠ "" ∧ 0 < shares ∧ 0 < price ∧ pdate.isSome
    · rw [if_neg (not_not_intro hv), hp]
      dsimp only
      by_cases hfut : today < p
      · rw [if_pos hfut]
      · rw [if_neg hfut]
        by_cases hnp : shares ≤ 0 ∨ price ≤ 0
        · rw [if_pos hnp]
        · rw [if_neg hnp]
          cases hcp : o.current_price with
          | none => rfl
          | some cp =>
            dsimp only
            rw [hfd]
            dsimp only
            rw [if_pos hlt]
    · rw [if_pos hv]

/-- Witness for the amended C6: non-positive shares are rejected with no
retrieval; a pre-listing date (3 before first date 10) is rejected. -/
theorem add_asset_validation_witness :
    ((0 : ℚ) ≤ 0 ∧
      on_add_click ⟨some 5, some 10⟩ 20 "A" 0 1 (some 3) = ([], .rejected)) ∧
    ((3 : Date) < 10 ∧
      (on_add_click ⟨some 5, some 10⟩ 20 "A" 1 1 (some 3)).2 = .rejected) :=
  ⟨⟨le_refl 0,
      (add_asset_validation ⟨some 5, some 10⟩ 20 "A" 0 1 (some 3)).1
        (Or.inl (le_refl 0))⟩,
    ⟨by decide,
      (add_asset_validation ⟨some 5, some 10⟩ 20 "A" 1 1 (some 3)).2 3 10
        rfl rfl (by decide)⟩⟩
